import Mathlib

/-!
# Verification of the recipe-org hierarchical classification (Dewey) engine

This file gives a shallow embedding, in Lean 4, of the classification-code
logic of the recipe-org repository and proves (or refutes) the specification
claims about it.

The embedded source functions are:

* `getDeweyLevel`      — src/app.tsx 391-408 (duplicated verbatim at 1142-1160)
* `getDeweyParentCode` — src/app.tsx 411-432 (duplicated verbatim at 1162-1184)
* `getDeweyParent`     — src/components/RecipeForm.tsx 86-107 (verbatim copy of
  `getDeweyParentCode`)
* `getNextDeweySequence` — src/db.tsx 329-344
* `parseCodeAndName`, `handleImportFromCSV` — src/app.tsx 254-309, 377-388
* `handleDeleteCategory` — src/app.tsx 130-157
* `handleDeweySelect` and its tag-derivation helpers, in both of the source's
  variants: src/components/RecipeForm.tsx 44-127 and unnamed/part_003 35-109.

JavaScript strings are embedded as Lean `String` and, where character-level
work is needed, as their underlying `List Char`.  JavaScript numbers appearing
here are all non-negative integers and are embedded as `Nat`.
-/

/-- The `DeweyCategory` record of src/types/recipe.ts: `parentCode` is an
optional field, embedded as `Option String`. -/
structure DeweyCategory where
  id : Nat
  deweyCode : String
  name : String
  level : Nat
  parentCode : Option String
  isActive : Bool
deriving DecidableEq, Repr

/-- Prepend a character to the first group of a split result. -/
def consHead (c : Char) : List (List Char) → List (List Char)
  | [] => [[c]]
  | g :: gs => (c :: g) :: gs

/-- JavaScript `str.split(sep)` for a single-character separator, on the
character list of the string: splits at every occurrence of `sep`, keeping
empty groups, and always returns at least one group. -/
def splitChar (sep : Char) : List Char → List (List Char)
  | [] => [[]]
  | c :: cs => if c = sep then [] :: splitChar sep cs else consHead c (splitChar sep cs)

/-- `getDeweyLevel` of src/app.tsx 391-408.  JavaScript `!deweyCode` is true
exactly for the empty string; `deweyCode.includes('.')` is membership of `'.'`
in the characters; `parts[0] || ''` / `parts[1] || ''` index the split with
default `''`. -/
def getDeweyLevel (deweyCode : String) : Nat :=
  if deweyCode.data = [] then 1
  else if deweyCode.data.contains '.' then
    let parts := splitChar '.' deweyCode.data
    (parts.headD []).length + ((parts.drop 1).headD []).length
  else deweyCode.data.length

/-- `getDeweyParentCode` of src/app.tsx 411-432.  `lastIndexOf('.')` based
slicing is embedded by reversing the character list: `afterDot` is the run of
characters after the last `'.'` and `beforeDot` everything before it.  The
source returns `undefined` (here `none`) for the empty string and for pure
digit strings of length at most one. -/
def getDeweyParentCode (deweyCode : String) : Option String :=
  if deweyCode.data = [] then none
  else if deweyCode.data.contains '.' then
    let rev := deweyCode.data.reverse
    let afterDot := (rev.takeWhile (fun c => c ≠ '.')).reverse
    let beforeDot := ((rev.dropWhile (fun c => c ≠ '.')).drop 1).reverse
    if 1 < afterDot.length then
      some (String.mk (beforeDot ++ '.' :: afterDot.dropLast))
    else
      some (String.mk beforeDot)
  else if deweyCode.data.length ≤ 1 then none
  else some (String.mk deweyCode.data.dropLast)

/-- `getDeweyParent` of src/components/RecipeForm.tsx 86-107, a verbatim copy
of `getDeweyParentCode` from src/app.tsx. -/
def getDeweyParent (deweyCode : String) : Option String :=
  getDeweyParentCode deweyCode

/-- Lexicographic (codepoint-wise) strict order on character lists.  This
models the text ordering used by the database for
`ORDER BY dewey_decimal DESC` over the digit/dot strings at hand. -/
def lexLt : List Char → List Char → Bool
  | [], [] => false
  | [], _ :: _ => true
  | _ :: _, [] => false
  | a :: as, b :: bs => if a < b then true else if b < a then false else lexLt as bs

/-- `ORDER BY dewey_decimal DESC LIMIT 1` over a list of matching rows: the
lexicographically greatest element, `none` when there is no row. -/
def sqlMaxString (l : List String) : Option String :=
  l.foldl
    (fun acc s =>
      match acc with
      | none => some s
      | some m => if lexLt m.data s.data then some s else some m)
    none

/-- JavaScript `parseInt(s, 10)` restricted to the digit-leading strings that
occur here: the value of the maximal leading digit run, `none` (`NaN`) when
the string does not start with a digit. -/
def jsParseInt (l : List Char) : Option Nat :=
  let ds := l.takeWhile Char.isDigit
  if ds = [] then none
  else some (ds.foldl (fun a c => 10 * a + (c.toNat - 48)) 0)

/-- JavaScript `String(n)` / `Nat.repr`: decimal representation. -/
def jsNumToString (n : Nat) : String :=
  Nat.repr n

/-- JavaScript `s.padStart(n, c)`: left-pad with `c` up to length `n`; a
string already at least `n` long is returned unchanged. -/
def jsPadStart (s : String) (n : Nat) (c : Char) : String :=
  if n ≤ s.data.length then s
  else String.mk (List.replicate (n - s.data.length) c) ++ s

/-- The SQL `LIKE base || '.%'` row filter: the code starts with
`base ++ "."`.  (`baseDeweyCode` contains only digits and dots, so the LIKE
metacharacters play no role.) -/
def likeBaseDot (base : String) (s : String) : Bool :=
  (base ++ ".").data.isPrefixOf s.data

/-- `getNextDeweySequence` of src/db.tsx 329-344.  The database is embedded
as the list `recipes` of the `dewey_decimal` values of all stored recipes;
the SQL query keeps those matching `LIKE baseDeweyCode || '.%'` and takes the
lexicographically greatest.  `parts[parts.length - 1]` is the last
dot-separated segment; a `NaN` from `parseInt` stringifies to `"NaN"`. -/
def getNextDeweySequence (baseDeweyCode : String) (recipes : List String) : String :=
  let matching := recipes.filter (likeBaseDot baseDeweyCode)
  match sqlMaxString matching with
  | none => baseDeweyCode ++ ".001"
  | some lastCode =>
    let lastPart := (splitChar '.' lastCode.data).getLastD []
    match jsParseInt lastPart with
    | none => baseDeweyCode ++ "." ++ "NaN"
    | some lastNumber =>
      baseDeweyCode ++ "." ++ jsPadStart (jsNumToString (lastNumber + 1)) 3 '0'

/-- JavaScript regex `\s` / `String.prototype.trim` whitespace characters,
by code point. -/
def jsIsWhitespace (c : Char) : Bool :=
  c.toNat ∈ [9, 10, 11, 12, 13, 32, 160, 5760, 8192, 8193, 8194, 8195, 8196, 8197,
    8198, 8199, 8200, 8201, 8202, 8232, 8233, 8239, 8287, 12288, 65279]

/-- JavaScript `s.trim()` on the character list: strip whitespace from both
ends. -/
def jsTrim (l : List Char) : List Char :=
  ((l.dropWhile jsIsWhitespace).reverse.dropWhile jsIsWhitespace).reverse

/-- A character matched by the `[0-9.]` class of the import field pattern. -/
def isCodeChar (c : Char) : Bool :=
  c.isDigit || c = '.'

/-- `parseCodeAndName` of src/app.tsx 377-388 (for the newline-free fields it
is called on).  The regex `^([0-9.]+)\s+(.+)$` matches exactly when the field
starts with a nonempty `[0-9.]` run followed by a whitespace character and at
least one further character; the captured code is that maximal leading run
(backtracking cannot shorten it, as neither `\s` nor `.` at the match
boundary accepts a digit or dot) and the trimmed name is the remainder
stripped of the separating whitespace.  On no match the whole trimmed field
becomes the name with an empty code. -/
def parseCodeAndName (field : String) : String × String :=
  if jsTrim field.data = [] then ("", "")
  else
    let code := field.data.takeWhile isCodeChar
    let rest := field.data.dropWhile isCodeChar
    let matched : Bool :=
      match rest with
      | r1 :: _ :: _ => !code.isEmpty && jsIsWhitespace r1
      | _ => false
    if matched then (String.mk code, String.mk (jsTrim rest))
    else ("", String.mk (jsTrim field.data))

/-- JavaScript `x || undefined`: an empty string is coerced to `undefined`.
Used by the import path on the derived parent code. -/
def jsOrUndefined (o : Option String) : Option String :=
  match o with
  | some s => if s = "" then none else some s
  | none => none

/-- The state threaded through `handleImportFromCSV` (src/app.tsx 254-309):
the categories created so far in this run, the codes recorded in the run's
`categoriesMap`, the next database id, the imported counter and the error
list.  The database snapshot `categories` read by the handler is fixed for
the whole run (React state reads inside the loop see the initial value). -/
structure ImportState where
  created : List DeweyCategory
  seenCodes : List String
  nextId : Nat
  importedCount : Nat
  errors : List String
deriving DecidableEq, Repr

/-- One iteration of the inner field loop of `handleImportFromCSV`
(src/app.tsx 264-302): trim the field, parse code and name, skip empty or
already-seen or already-existing codes, otherwise create the category with
the derived level and parent code. -/
def processField (snapshot : List DeweyCategory) (st : ImportState) (field : String) :
    ImportState :=
  if jsTrim field.data = [] then st
  else
    let cn := parseCodeAndName (String.mk (jsTrim field.data))
    if cn.1 = "" ∨ cn.2 = "" then st
    else if st.seenCodes.contains cn.1 then st
    else
      match snapshot.find? (fun cat => cat.deweyCode == cn.1) with
      | some _ => { st with seenCodes := cn.1 :: st.seenCodes }
      | none =>
        { created := st.created ++
            [{ id := st.nextId, deweyCode := cn.1, name := cn.2,
               level := getDeweyLevel cn.1,
               parentCode := jsOrUndefined (getDeweyParentCode cn.1), isActive := true }],
          seenCodes := cn.1 :: st.seenCodes,
          nextId := st.nextId + 1,
          importedCount := st.importedCount + 1,
          errors := st.errors }

/-- One iteration of the line loop of `handleImportFromCSV`: split the line
at commas and process each field.  The per-line `try/catch` only catches
database failures, which the pure embedding does not have, so the error list
is never extended. -/
def processLine (snapshot : List DeweyCategory) (st : ImportState) (line : String) :
    ImportState :=
  ((splitChar ',' line.data).map String.mk).foldl (processField snapshot) st

/-- `handleImportFromCSV` of src/app.tsx 254-309, from the point where the
file text is available: split into lines, drop blank ones, and fold the
field processor over every line, starting from an empty run state. -/
def handleImportFromCSV (snapshot : List DeweyCategory) (nextId : Nat) (text : String) :
    ImportState :=
  let lines := ((splitChar '\n' text.data).map String.mk).filter
    (fun l => !(jsTrim l.data).isEmpty)
  lines.foldl (processLine snapshot)
    { created := [], seenCodes := [], nextId := nextId, importedCount := 0, errors := [] }

/-- Outcome of `handleDeleteCategory`: either the blocked-delete alert or the
updated category list. -/
inductive DeleteCategoryResult where
  | hasChildrenError
  | deleted (categories : List DeweyCategory)
deriving DecidableEq, Repr

/-- `handleDeleteCategory` of src/app.tsx 130-157, after the user confirms:
if any category of the current list has this category's code as its
`parentCode` the delete is refused and the list unchanged, otherwise the
category is removed by id. -/
def handleDeleteCategory (categories : List DeweyCategory) (category : DeweyCategory) :
    DeleteCategoryResult :=
  if categories.any (fun cat => cat.parentCode == some category.deweyCode) then
    .hasChildrenError
  else
    .deleted (categories.filter (fun cat => cat.id ≠ category.id))

/-- The `deweyCode.match(/\.\d{3}$/)` test of unnamed/part_003 42: the code
ends in a dot followed by exactly three digits. -/
def isGeneratedSequence (code : String) : Bool :=
  match code.data.reverse with
  | d1 :: d2 :: d3 :: c :: _ => d1.isDigit && d2.isDigit && d3.isDigit && (c = '.')
  | _ => false

/-- `deweyCode.substring(0, deweyCode.lastIndexOf('.'))`: everything before
the last dot. -/
def stripLastDotSegment (code : String) : String :=
  String.mk (((code.data.reverse.dropWhile (fun c => c ≠ '.')).drop 1).reverse)

/-- `buildDeweyHierarchy` of unnamed/part_003 66-86: walk up the explicit
`parentCode` links of the loaded categories, unshifting each visited code, so
the result is root-first.  The source's `while` loop can diverge on cyclic
`parentCode` data; the embedding bounds the walk by a fuel parameter, and the
caller passes more fuel than any acyclic walk can use.  An absent or empty
parent code ends the walk. -/
def buildDeweyHierarchyStore (cats : List DeweyCategory) : Nat → String → List String
  | 0, _ => []
  | fuel + 1, currentCode =>
    if currentCode = "" then []
    else
      match cats.find? (fun cat => cat.deweyCode == currentCode) with
      | some cat =>
        match cat.parentCode with
        | some p => buildDeweyHierarchyStore cats fuel p ++ [currentCode]
        | none => [currentCode]
      | none => [currentCode]

/-- `getDeweyHierarchyTags` of unnamed/part_003 35-63: strip a trailing
`.ddd` sequence suffix, build the ancestor chain, and emit the bare
`category.name` of every chain code found among the loaded categories. -/
def getDeweyHierarchyTagsStore (cats : List DeweyCategory) (deweyCode : String) :
    List String :=
  if deweyCode = "" then []
  else
    let baseCode :=
      if isGeneratedSequence deweyCode then stripLastDotSegment deweyCode else deweyCode
    let levels := buildDeweyHierarchyStore cats (cats.length + 1) baseCode
    levels.filterMap
      (fun levelCode =>
        (cats.find? (fun cat => cat.deweyCode == levelCode)).map (fun cat => cat.name))

/-- `handleDeweySelect` of unnamed/part_003 88-109: drop every tag equal to
some loaded category's name, then append the freshly derived hierarchy tags
(none when the code is cleared). -/
def handleDeweySelectStore (cats : List DeweyCategory) (tags : List String)
    (deweyCode : String) : List String :=
  let allDeweyNames := cats.map (fun cat => cat.name)
  let nonDeweyTags := tags.filter (fun tag => !(allDeweyNames.contains tag))
  if deweyCode = "" then nonDeweyTags
  else nonDeweyTags ++ getDeweyHierarchyTagsStore cats deweyCode

/-- The ancestor part of `buildDeweyHierarchy` of
src/components/RecipeForm.tsx 64-83: repeatedly take the structural
`getDeweyParent`, unshifting each parent, until it is absent or empty.  Each
parent is strictly shorter than its child, so the caller's fuel of one more
than the code length never runs out. -/
def buildParentChainForm : Nat → String → List String
  | 0, _ => []
  | fuel + 1, currentCode =>
    if currentCode = "" then []
    else
      match getDeweyParent currentCode with
      | some p => if p = "" then [] else buildParentChainForm fuel p ++ [p]
      | none => []

/-- `buildDeweyHierarchy` of src/components/RecipeForm.tsx 64-83: the
selected code preceded by all its structural ancestors, root-first. -/
def buildDeweyHierarchyForm (deweyCode : String) : List String :=
  buildParentChainForm (deweyCode.data.length + 1) deweyCode ++ [deweyCode]

/-- `getDeweyHierarchyTags` of src/components/RecipeForm.tsx 44-61: for every
hierarchy code found among the loaded categories, emit the label
`deweyCode ++ " " ++ name`. -/
def getDeweyHierarchyTagsForm (cats : List DeweyCategory) (deweyCode : String) :
    List String :=
  if deweyCode = "" then []
  else
    (buildDeweyHierarchyForm deweyCode).filterMap
      (fun levelCode =>
        (cats.find? (fun cat => cat.deweyCode == levelCode)).map
          (fun cat => cat.deweyCode ++ " " ++ cat.name))

/-- The `(\.\d+)*` loop of the dewey-tag regex: consume maximal groups of a
dot followed by at least one digit, returning the unconsumed remainder.  The
fuel only bounds the recursion; each group consumes at least two characters,
so fuel equal to the list length is never exhausted. -/
def chompDotDigitGroups : Nat → List Char → List Char
  | 0, l => l
  | _, [] => []
  | fuel + 1, c :: rest =>
    if c = '.' then
      if (rest.takeWhile Char.isDigit).isEmpty then c :: rest
      else chompDotDigitGroups fuel (rest.dropWhile Char.isDigit)
    else c :: rest

/-- The `/^\d+(\.\d+)*\s/.test(tag)` check of
src/components/RecipeForm.tsx 118: a leading digit run, then dot-digit
groups, then a whitespace character.  Greedy matching without backtracking is
exact here, because at each boundary the alternatives (digit versus dot
versus whitespace) are disjoint. -/
def testDeweyTagPattern (tag : String) : Bool :=
  let afterDigits := tag.data.dropWhile Char.isDigit
  if (tag.data.takeWhile Char.isDigit).isEmpty then false
  else
    match chompDotDigitGroups afterDigits.length afterDigits with
    | c :: _ => jsIsWhitespace c
    | [] => false

/-- `handleDeweySelect` of src/components/RecipeForm.tsx 109-127: only a
nonempty selection touches the tags — it drops every tag matching the
`^\d+(\.\d+)*\s` pattern and appends the derived `code name` labels; clearing
the selection leaves the tag list untouched. -/
def handleDeweySelectForm (cats : List DeweyCategory) (tags : List String)
    (deweyCode : String) : List String :=
  if deweyCode = "" then tags
  else
    tags.filter (fun tag => !(testDeweyTagPattern tag)) ++
      getDeweyHierarchyTagsForm cats deweyCode

/-! ## Helper lemmas: characters, strings and `splitChar` -/

theorem mk_data_eq (s : String) : String.mk s.data = s := by
  cases s
  rfl

theorem data_eq_nil_iff (s : String) : s.data = [] ↔ s = "" := by
  constructor
  · intro h
    exact String.ext h
  · intro h
    subst h
    rfl

theorem isDigit_ne_dot {c : Char} (h : c.isDigit = true) : c ≠ '.' := by
  intro he
  subst he
  exact absurd h (by decide)

theorem isDigit_toNat_bounds {c : Char} (h : c.isDigit = true) :
    48 ≤ c.toNat ∧ c.toNat ≤ 57 := by
  unfold Char.isDigit at h
  simp only [Bool.and_eq_true, decide_eq_true_eq] at h
  exact h

theorem data_append_dot (a b : String) :
    (a ++ "." ++ b).data = a.data ++ '.' :: b.data := by
  simp [String.data_append]

theorem contains_of_mem {α : Type} [BEq α] [LawfulBEq α] {l : List α} {c : α}
    (h : c ∈ l) : l.contains c = true :=
  List.elem_iff.mpr h

theorem contains_eq_false_of_not_mem {α : Type} [BEq α] [LawfulBEq α] {l : List α} {c : α}
    (h : c ∉ l) : l.contains c = false := by
  cases hc : l.contains c with
  | false => rfl
  | true => exact absurd (List.elem_iff.mp hc) h

theorem takeWhile_ne_append (sep : Char) (xs ys : List Char) (h : ∀ c ∈ xs, c ≠ sep) :
    (xs ++ sep :: ys).takeWhile (fun c => c ≠ sep) = xs := by
  induction xs with
  | nil => simp [List.takeWhile_cons]
  | cons a as ih =>
    have ha : a ≠ sep := h a (List.mem_cons_self a as)
    simp only [List.cons_append, List.takeWhile_cons, decide_eq_true ha, if_pos]
    rw [ih (fun c hc => h c (List.mem_cons_of_mem a hc))]

theorem dropWhile_ne_append (sep : Char) (xs ys : List Char) (h : ∀ c ∈ xs, c ≠ sep) :
    (xs ++ sep :: ys).dropWhile (fun c => c ≠ sep) = sep :: ys := by
  induction xs with
  | nil => simp [List.dropWhile_cons]
  | cons a as ih =>
    have ha : a ≠ sep := h a (List.mem_cons_self a as)
    simp only [List.cons_append, List.dropWhile_cons, decide_eq_true ha, if_pos]
    exact ih (fun c hc => h c (List.mem_cons_of_mem a hc))

theorem takeWhile_all_eq (p : Char → Bool) (l : List Char) (h : ∀ c ∈ l, p c = true) :
    l.takeWhile p = l :=
  List.takeWhile_eq_self_iff.mpr h

theorem splitChar_ne_nil (sep : Char) (l : List Char) : splitChar sep l ≠ [] := by
  cases l with
  | nil => simp [splitChar]
  | cons c cs =>
    simp only [splitChar]
    split
    · simp
    · cases hsc : splitChar sep cs <;> simp [consHead]

theorem splitChar_sep_free (sep : Char) (l : List Char) (h : ∀ c ∈ l, c ≠ sep) :
    splitChar sep l = [l] := by
  induction l with
  | nil => rfl
  | cons c cs ih =>
    have hc : c ≠ sep := h c (List.mem_cons_self c cs)
    simp only [splitChar, if_neg hc, ih (fun x hx => h x (List.mem_cons_of_mem c hx))]
    rfl

theorem splitChar_append_sep (sep : Char) (xs ys : List Char) (h : ∀ c ∈ xs, c ≠ sep) :
    splitChar sep (xs ++ sep :: ys) = xs :: splitChar sep ys := by
  induction xs with
  | nil => simp [splitChar]
  | cons a as ih =>
    have ha : a ≠ sep := h a (List.mem_cons_self a as)
    have ih2 := ih (fun c hc => h c (List.mem_cons_of_mem a hc))
    simp only [List.cons_append, splitChar, List.append_eq, if_neg ha, ih2, consHead]

theorem two_le_length_splitChar_append (sep : Char) (xs ys : List Char) :
    2 ≤ (splitChar sep (xs ++ sep :: ys)).length := by
  induction xs with
  | nil =>
    simp only [List.nil_append, splitChar, if_pos rfl, List.length_cons]
    cases hsc : splitChar sep ys with
    | nil => exact absurd hsc (splitChar_ne_nil sep ys)
    | cons g gs => simp
  | cons a as ih =>
    simp only [List.cons_append, splitChar, List.append_eq]
    split
    · simp only [List.length_cons]
      omega
    · cases hsc : splitChar sep (as ++ sep :: ys) with
      | nil => exact absurd hsc (splitChar_ne_nil sep _)
      | cons g gs =>
        rw [hsc] at ih
        simp only [hsc, consHead, List.length_cons]
        simpa using ih

theorem getLastD_irrel {gs : List (List Char)} (h : gs ≠ []) (d d' : List Char) :
    gs.getLastD d = gs.getLastD d' := by
  cases gs with
  | nil => exact absurd rfl h
  | cons x xs => rw [List.getLastD_cons, List.getLastD_cons]

theorem getLastD_consHead (c : Char) (g : List Char) (gs : List (List Char)) (h : gs ≠ []) :
    (consHead c (g :: gs)).getLastD [] = (g :: gs).getLastD [] := by
  cases gs with
  | nil => exact absurd rfl h
  | cons g2 gs2 => simp only [consHead, List.getLastD_cons]

theorem getLastD_splitChar_append (sep : Char) (xs ys : List Char)
    (hy : ∀ c ∈ ys, c ≠ sep) :
    (splitChar sep (xs ++ sep :: ys)).getLastD [] = ys := by
  induction xs with
  | nil =>
    rw [List.nil_append]
    simp only [splitChar, if_pos rfl, splitChar_sep_free sep ys hy]
    rfl
  | cons a as ih =>
    have h2 : 2 ≤ (splitChar sep (as ++ sep :: ys)).length :=
      two_le_length_splitChar_append sep as ys
    simp only [List.cons_append, splitChar, List.append_eq]
    split
    · rw [List.getLastD_cons]
      exact ih
    · cases hsc : splitChar sep (as ++ sep :: ys) with
      | nil => exact absurd hsc (splitChar_ne_nil sep _)
      | cons g gs =>
        rw [hsc] at ih h2
        have hgs : gs ≠ [] := by
          intro hn
          subst hn
          simp at h2
        rw [getLastD_consHead a g gs hgs]
        exact ih

/-! ## Helper lemmas: the code grammar -/

theorem ne_dot_of_mem {l : List Char} (h : '.' ∉ l) : ∀ c ∈ l, c ≠ '.' :=
  fun _ hc he => h (he ▸ hc)

theorem not_mem_dot_of_digits {l : List Char} (h : ∀ c ∈ l, c.isDigit = true) :
    '.' ∉ l :=
  fun hm => absurd (h '.' hm) (by decide)

theorem getDeweyLevel_no_dot (s : String) (h0 : s.data ≠ []) (h : '.' ∉ s.data) :
    getDeweyLevel s = s.data.length := by
  have hc : s.data.contains '.' = false := contains_eq_false_of_not_mem h
  simp only [getDeweyLevel, if_neg h0, hc, Bool.false_eq_true, if_false]

theorem getDeweyLevel_one_dot (w f : String) (hw : '.' ∉ w.data) (hf : '.' ∉ f.data) :
    getDeweyLevel (w ++ "." ++ f) = w.data.length + f.data.length := by
  have hd := data_append_dot w f
  have hne : (w ++ "." ++ f).data ≠ [] := by
    rw [hd]
    simp
  have hcon : (w ++ "." ++ f).data.contains '.' = true :=
    hd ▸ contains_of_mem (List.mem_append_right _ (List.mem_cons_self _ _))
  have hsplit : splitChar '.' (w.data ++ '.' :: f.data) = [w.data, f.data] := by
    rw [splitChar_append_sep '.' w.data f.data (ne_dot_of_mem hw),
      splitChar_sep_free '.' f.data (ne_dot_of_mem hf)]
  simp only [getDeweyLevel, if_neg hne, hcon, if_true, hd, hsplit]
  simp

theorem getDeweyLevel_multi_dot (a b rest : String) (ha : '.' ∉ a.data)
    (hb : '.' ∉ b.data) :
    getDeweyLevel (a ++ "." ++ b ++ "." ++ rest) = a.data.length + b.data.length := by
  have hd : (a ++ "." ++ b ++ "." ++ rest).data =
      a.data ++ '.' :: (b.data ++ '.' :: rest.data) := by
    simp [String.data_append]
  have hne : (a ++ "." ++ b ++ "." ++ rest).data ≠ [] := by
    rw [hd]
    simp
  have hcon : (a ++ "." ++ b ++ "." ++ rest).data.contains '.' = true :=
    hd ▸ contains_of_mem (List.mem_append_right _ (List.mem_cons_self _ _))
  have hsplit : splitChar '.' (a.data ++ '.' :: (b.data ++ '.' :: rest.data)) =
      a.data :: b.data :: splitChar '.' rest.data := by
    rw [splitChar_append_sep '.' a.data _ (ne_dot_of_mem ha),
      splitChar_append_sep '.' b.data _ (ne_dot_of_mem hb)]
  simp only [getDeweyLevel, if_neg hne, hcon, if_true, hd, hsplit]
  simp

theorem getDeweyParentCode_dot_multi (p f : String) (hf : '.' ∉ f.data)
    (h2 : 2 ≤ f.data.length) :
    getDeweyParentCode (p ++ "." ++ f) = some (String.mk (p.data ++ '.' :: f.data.dropLast)) := by
  have hd := data_append_dot p f
  have hne : (p ++ "." ++ f).data ≠ [] := by
    rw [hd]
    simp
  have hcon : (p ++ "." ++ f).data.contains '.' = true :=
    hd ▸ contains_of_mem (List.mem_append_right _ (List.mem_cons_self _ _))
  have hrev : (p ++ "." ++ f).data.reverse = f.data.reverse ++ '.' :: p.data.reverse := by
    rw [hd]
    simp
  have hfr : ∀ c ∈ f.data.reverse, c ≠ '.' := by
    intro c hc
    exact ne_dot_of_mem hf c (List.mem_reverse.mp hc)
  have htake : (p ++ "." ++ f).data.reverse.takeWhile (fun c => c ≠ '.') = f.data.reverse := by
    rw [hrev]
    exact takeWhile_ne_append '.' _ _ hfr
  have hdrop : (p ++ "." ++ f).data.reverse.dropWhile (fun c => c ≠ '.') = '.' :: p.data.reverse := by
    rw [hrev]
    exact dropWhile_ne_append '.' _ _ hfr
  have hlen : 1 < f.data.reverse.reverse.length := by
    simpa using h2
  simp only [getDeweyParentCode, if_neg hne, hcon, if_pos, htake, hdrop,
    List.drop_one, List.tail_cons, List.reverse_reverse]
  rw [if_pos (by simpa using h2)]

theorem getDeweyParentCode_dot_single (p f : String) (hf : '.' ∉ f.data)
    (h1 : f.data.length = 1) :
    getDeweyParentCode (p ++ "." ++ f) = some p := by
  have hd := data_append_dot p f
  have hne : (p ++ "." ++ f).data ≠ [] := by
    rw [hd]
    simp
  have hcon : (p ++ "." ++ f).data.contains '.' = true :=
    hd ▸ contains_of_mem (List.mem_append_right _ (List.mem_cons_self _ _))
  have hrev : (p ++ "." ++ f).data.reverse = f.data.reverse ++ '.' :: p.data.reverse := by
    rw [hd]
    simp
  have hfr : ∀ c ∈ f.data.reverse, c ≠ '.' := by
    intro c hc
    exact ne_dot_of_mem hf c (List.mem_reverse.mp hc)
  have htake : (p ++ "." ++ f).data.reverse.takeWhile (fun c => c ≠ '.') = f.data.reverse := by
    rw [hrev]
    exact takeWhile_ne_append '.' _ _ hfr
  have hdrop : (p ++ "." ++ f).data.reverse.dropWhile (fun c => c ≠ '.') = '.' :: p.data.reverse := by
    rw [hrev]
    exact dropWhile_ne_append '.' _ _ hfr
  simp only [getDeweyParentCode, if_neg hne, hcon, if_pos, htake, hdrop,
    List.drop_one, List.tail_cons, List.reverse_reverse]
  rw [if_neg (by simp [h1]), mk_data_eq]

theorem getDeweyParentCode_pure (s : String) (h : '.' ∉ s.data)
    (h2 : 2 ≤ s.data.length) :
    getDeweyParentCode s = some (String.mk s.data.dropLast) := by
  have hne : s.data ≠ [] := by
    intro hn
    rw [hn] at h2
    simp at h2
  have hc : s.data.contains '.' = false := contains_eq_false_of_not_mem h
  simp only [getDeweyParentCode, if_neg hne, hc, Bool.false_eq_true, if_false]
  rw [if_neg (by omega)]

theorem getDeweyParentCode_root (s : String) (h : '.' ∉ s.data)
    (h1 : s.data.length ≤ 1) :
    getDeweyParentCode s = none := by
  have hc : s.data.contains '.' = false := contains_eq_false_of_not_mem h
  by_cases hne : s.data = []
  · simp [getDeweyParentCode, hne]
  · simp only [getDeweyParentCode, if_neg hne, hc, Bool.false_eq_true, if_false]
    rw [if_pos h1]

/-! ## Claims about the code grammar -/

/-- C2: for every classification code, if the code contains a decimal point
and the fraction after the last dot has more than one character, its parent
is the same string with the fraction's last character removed; if the
fraction has exactly one character, the parent is the prefix before the dot;
if the code is a pure digit string of length greater than one, the parent is
the code with its last character removed; a digit code of length one has no
parent. -/
theorem spec2proof_C2 :
    (∀ p f : String, '.' ∉ f.data → 2 ≤ f.data.length →
      getDeweyParentCode (p ++ "." ++ f) =
        some (String.mk (p.data ++ '.' :: f.data.dropLast))) ∧
    (∀ p f : String, '.' ∉ f.data → f.data.length = 1 →
      getDeweyParentCode (p ++ "." ++ f) = some p) ∧
    (∀ s : String, (∀ c ∈ s.data, c.isDigit = true) → 2 ≤ s.data.length →
      getDeweyParentCode s = some (String.mk s.data.dropLast)) ∧
    (∀ s : String, (∀ c ∈ s.data, c.isDigit = true) → s.data.length = 1 →
      getDeweyParentCode s = none) := by
  refine ⟨getDeweyParentCode_dot_multi, getDeweyParentCode_dot_single, ?_, ?_⟩
  · intro s hdig h2
    exact getDeweyParentCode_pure s (not_mem_dot_of_digits hdig) h2
  · intro s hdig h1
    exact getDeweyParentCode_root s (not_mem_dot_of_digits hdig) (by omega)

/-- Witness for C2 at the spec's concrete examples. -/
theorem spec2proof_C2_witness :
    getDeweyParentCode "0" = none ∧ getDeweyParentCode "000" = some "00" ∧
    getDeweyParentCode "000.0" = some "000" ∧
    getDeweyParentCode "000.00" = some "000.0" := by
  refine ⟨spec2proof_C2.2.2.2 "0" (by decide) (by decide), ?_, ?_, ?_⟩
  · exact (spec2proof_C2.2.2.1 "000" (by decide) (by decide)).trans (by decide)
  · have h := spec2proof_C2.2.1 "000" "0" (by decide) (by decide)
    have e : ("000" ++ "." ++ "0" : String) = "000.0" := by decide
    exact e ▸ h
  · have h := spec2proof_C2.1 "000" "00" (by decide) (by decide)
    have e : ("000" ++ "." ++ "00" : String) = "000.00" := by decide
    exact (e ▸ h).trans (by decide)

/-- C3: for a nonempty code with no decimal point the level is its length;
for a code with exactly one decimal point the level is the length of the
whole part plus the length of the fraction part. -/
theorem spec2proof_C3 :
    (∀ s : String, s ≠ "" → '.' ∉ s.data → getDeweyLevel s = s.data.length) ∧
    (∀ w f : String, '.' ∉ w.data → '.' ∉ f.data →
      getDeweyLevel (w ++ "." ++ f) = w.data.length + f.data.length) := by
  constructor
  · intro s hne h
    exact getDeweyLevel_no_dot s (fun hn => hne ((data_eq_nil_iff s).mp hn)) h
  · exact getDeweyLevel_one_dot

/-- Witness for C3 at the spec's concrete examples. -/
theorem spec2proof_C3_witness :
    getDeweyLevel "000" = 3 ∧ getDeweyLevel "000.0" = 4 ∧ getDeweyLevel "000.00" = 5 := by
  refine ⟨(spec2proof_C3.1 "000" (by decide) (by decide)).trans (by decide), ?_, ?_⟩
  · have h := spec2proof_C3.2 "000" "0" (by decide) (by decide)
    have e : ("000" ++ "." ++ "0" : String) = "000.0" := by decide
    exact (e ▸ h).trans (by decide)
  · have h := spec2proof_C3.2 "000" "00" (by decide) (by decide)
    have e : ("000" ++ "." ++ "00" : String) = "000.00" := by decide
    exact (e ▸ h).trans (by decide)

/-- C4: for valid non-root codes in both notations, the parent exists and its
level is one less than the code's level.  Pure digit codes of length at least
two cover the integer-concatenation notation; digit codes `whole.fraction`
with one dot cover the decimal notation. -/
theorem spec2proof_C4 :
    (∀ s : String, (∀ c ∈ s.data, c.isDigit = true) → 2 ≤ s.data.length →
      ∃ p, getDeweyParentCode s = some p ∧ getDeweyLevel p = getDeweyLevel s - 1) ∧
    (∀ w f : String, (∀ c ∈ w.data, c.isDigit = true) →
      (∀ c ∈ f.data, c.isDigit = true) → w.data ≠ [] → f.data ≠ [] →
      ∃ p, getDeweyParentCode (w ++ "." ++ f) = some p ∧
        getDeweyLevel p = getDeweyLevel (w ++ "." ++ f) - 1) := by
  constructor
  · intro s hdig h2
    have hnd : '.' ∉ s.data := not_mem_dot_of_digits hdig
    refine ⟨String.mk s.data.dropLast, getDeweyParentCode_pure s hnd h2, ?_⟩
    have hsub : '.' ∉ s.data.dropLast := fun hm => hnd (List.dropLast_subset _ hm)
    have hlen : s.data.dropLast.length = s.data.length - 1 := List.length_dropLast _
    have hne2 : s.data.dropLast ≠ [] := by
      intro hn
      have h0 : s.data.dropLast.length = 0 := by
        rw [hn]
        rfl
      rw [hlen] at h0
      omega
    have h1 := getDeweyLevel_no_dot (String.mk s.data.dropLast) hne2 hsub
    have h2l := getDeweyLevel_no_dot s (by intro hn; rw [hn] at h2; simp at h2) hnd
    rw [h1, h2l, hlen]
  · intro w f hw hf hwne hfne
    have hwd : '.' ∉ w.data := not_mem_dot_of_digits hw
    have hfd : '.' ∉ f.data := not_mem_dot_of_digits hf
    have hcode := getDeweyLevel_one_dot w f hwd hfd
    by_cases h2 : 2 ≤ f.data.length
    · refine ⟨String.mk (w.data ++ '.' :: f.data.dropLast),
        getDeweyParentCode_dot_multi w f hfd h2, ?_⟩
      have hmk : String.mk (w.data ++ '.' :: f.data.dropLast) =
          w ++ "." ++ String.mk f.data.dropLast := by
        apply String.ext
        rw [data_append_dot]
      have hsub : '.' ∉ f.data.dropLast := fun hm => hfd (List.dropLast_subset _ hm)
      have hp := getDeweyLevel_one_dot w (String.mk f.data.dropLast) hwd hsub
      rw [hmk, hp, hcode, List.length_dropLast]
      have hf1 : 1 ≤ f.data.length := by omega
      omega
    · have h1 : f.data.length = 1 := by
        have : f.data.length ≠ 0 := fun hn => hfne (List.length_eq_zero.mp hn)
        omega
      refine ⟨w, getDeweyParentCode_dot_single w f hfd h1, ?_⟩
      rw [getDeweyLevel_no_dot w hwne hwd, hcode, h1]
      omega

/-- Witness for C4 at the codes 000 and 000.0. -/
theorem spec2proof_C4_witness :
    (∃ p, getDeweyParentCode "000" = some p ∧
      getDeweyLevel p = getDeweyLevel "000" - 1) ∧
    (∃ p, getDeweyParentCode ("000" ++ "." ++ "0") = some p ∧
      getDeweyLevel p = getDeweyLevel ("000" ++ "." ++ "0") - 1) :=
  ⟨spec2proof_C4.1 "000" (by decide) (by decide),
    spec2proof_C4.2 "000" "0" (by decide) (by decide) (by decide) (by decide)⟩

/-- C9, corrected: `getDeweyLevel` never signals an invalid-format error.  It
returns the numeric level 1 for the empty string, and for any other dot-free
string — including strings containing non-digit characters — it returns the
string's length. -/
theorem spec2proof_C9 :
    ∀ s : String, (s = "" → getDeweyLevel s = 1) ∧
      (s ≠ "" → '.' ∉ s.data → getDeweyLevel s = s.data.length) := by
  intro s
  constructor
  · intro h
    subst h
    decide
  · intro hne h
    exact getDeweyLevel_no_dot s (fun hn => hne ((data_eq_nil_iff s).mp hn)) h

/-- Counterexample to C9 as stated: on the empty string the source returns
the numeric level 1 instead of failing with an invalid-format error. -/
theorem spec2proof_C9_counterexample : getDeweyLevel "" = 1 := by decide

/-- Witness for C9 on a string of non-digit characters. -/
theorem spec2proof_C9_witness : getDeweyLevel "" = 1 ∧ getDeweyLevel "a!c" = 3 :=
  ⟨(spec2proof_C9 "").1 rfl,
    ((spec2proof_C9 "a!c").2 (by decide) (by decide)).trans (by decide)⟩

/-- C10: on a code with two or more dots, `getDeweyLevel` sums the lengths of
only the first two dot-separated segments, ignoring everything after the
second, so a sequence-suffixed code gets the same level as its base. -/
theorem spec2proof_C10 :
    ∀ a b rest : String, '.' ∉ a.data → '.' ∉ b.data →
      getDeweyLevel (a ++ "." ++ b ++ "." ++ rest) = a.data.length + b.data.length ∧
      getDeweyLevel (a ++ "." ++ b ++ "." ++ rest) = getDeweyLevel (a ++ "." ++ b) := by
  intro a b rest ha hb
  have h1 := getDeweyLevel_multi_dot a b rest ha hb
  have h2 := getDeweyLevel_one_dot a b ha hb
  exact ⟨h1, h1.trans h2.symm⟩

/-- Witness for C10 at the sequence-suffixed code 411.21.001, which gets
level 5, the level of its base 411.21. -/
theorem spec2proof_C10_witness :
    getDeweyLevel "411.21.001" = 5 ∧ getDeweyLevel "411.21.001" = getDeweyLevel "411.21" := by
  have h := spec2proof_C10 "411" "21" "001" (by decide) (by decide)
  have e1 : ("411" ++ "." ++ "21" ++ "." ++ "001" : String) = "411.21.001" := by decide
  have e2 : ("411" ++ "." ++ "21" : String) = "411.21" := by decide
  constructor
  · exact (e1 ▸ h.1).trans (by decide)
  · exact e1 ▸ e2 ▸ h.2

/-! ## C6: the category deletion guard -/

/-- A self-referencing category: its own `parentCode` equals its own
`deweyCode`.  Such a record can be produced through the update form, whose
`parentCode` field is free text. -/
def selfRefCat : DeweyCategory :=
  { id := 1, deweyCode := "0", name := "Self", level := 1, parentCode := some "0",
    isActive := true }

/-- Counterexample to C6 as stated: in a category set whose only element is a
self-referencing category, no OTHER category references it as parent, yet
`handleDeleteCategory` still refuses with the has-children error, because the
source checks every category including the one being deleted. -/
theorem spec2proof_C6_counterexample :
    ([selfRefCat].filter (fun cat => cat.id ≠ selfRefCat.id)) = [] ∧
    handleDeleteCategory [selfRefCat] selfRefCat = DeleteCategoryResult.hasChildrenError := by
  constructor
  · decide
  · decide

/-- C6, corrected: deleting a category fails with the has-children error and
leaves the set unchanged when ANY category of the set — the deleted one
itself included — has the deleted category's code as its `parentCode`; when
no category at all references it, deletion succeeds and removes it. -/
theorem spec2proof_C6 :
    ∀ (cats : List DeweyCategory) (c : DeweyCategory),
      ((∃ cat ∈ cats, cat.parentCode = some c.deweyCode) →
        handleDeleteCategory cats c = DeleteCategoryResult.hasChildrenError) ∧
      ((∀ cat ∈ cats, cat.parentCode ≠ some c.deweyCode) →
        handleDeleteCategory cats c =
          DeleteCategoryResult.deleted (cats.filter (fun cat => cat.id ≠ c.id)) ∧
        c ∉ cats.filter (fun cat => cat.id ≠ c.id)) := by
  intro cats c
  constructor
  · intro ⟨cat, hmem, hpc⟩
    have hany : cats.any (fun cat => cat.parentCode == some c.deweyCode) = true :=
      List.any_eq_true.mpr ⟨cat, hmem, by rw [hpc]; exact beq_self_eq_true _⟩
    simp only [handleDeleteCategory, hany, if_true]
  · intro hno
    have hany : cats.any (fun cat => cat.parentCode == some c.deweyCode) = false := by
      rw [List.any_eq_false]
      intro cat hmem
      simp only [beq_iff_eq]
      exact hno cat hmem
    constructor
    · simp only [handleDeleteCategory, hany, Bool.false_eq_true, if_false]
    · intro hmem
      have := (List.mem_filter.mp hmem).2
      simp at this

/-- Witness for C6: with root 0 and child 00 (parent 0), deleting 0 is
refused, and deleting the childless 00 removes it. -/
theorem spec2proof_C6_witness :
    handleDeleteCategory
      [{ id := 1, deweyCode := "0", name := "Root", level := 1, parentCode := none,
         isActive := true },
       { id := 2, deweyCode := "00", name := "Child", level := 2, parentCode := some "0",
         isActive := true }]
      { id := 1, deweyCode := "0", name := "Root", level := 1, parentCode := none,
        isActive := true } = DeleteCategoryResult.hasChildrenError ∧
    handleDeleteCategory
      [{ id := 2, deweyCode := "00", name := "Child", level := 2, parentCode := some "0",
         isActive := true }]
      { id := 2, deweyCode := "00", name := "Child", level := 2, parentCode := some "0",
        isActive := true } = DeleteCategoryResult.deleted [] := by
  constructor
  · exact (spec2proof_C6 _ _).1 ⟨_, List.mem_cons_of_mem _ (List.mem_cons_self _ _), rfl⟩
  · have h := ((spec2proof_C6
      [{ id := 2, deweyCode := "00", name := "Child", level := 2, parentCode := some "0",
         isActive := true }]
      { id := 2, deweyCode := "00", name := "Child", level := 2, parentCode := some "0",
        isActive := true }).2 (by decide)).1
    exact h.trans (by decide)

/-! ## C5: the tag projection round trip -/

theorem mem_names_of_mem_hierarchyTagsStore (cats : List DeweyCategory) (code : String) :
    ∀ t ∈ getDeweyHierarchyTagsStore cats code, t ∈ cats.map (fun cat => cat.name) := by
  intro t ht
  unfold getDeweyHierarchyTagsStore at ht
  by_cases h : code = ""
  · rw [if_pos h] at ht
    exact absurd ht (List.not_mem_nil t)
  · rw [if_neg h] at ht
    obtain ⟨lc, _, hmap⟩ := List.mem_filterMap.mp ht
    obtain ⟨cat, hfind, hname⟩ := Option.map_eq_some'.mp hmap
    exact List.mem_map.mpr ⟨cat, List.mem_of_find?_eq_some hfind, hname⟩

theorem filter_not_names_id (names : List String) (tags : List String)
    (h : ∀ t ∈ tags, t ∉ names) :
    tags.filter (fun tag => !(names.contains tag)) = tags := by
  apply List.filter_eq_self.mpr
  intro t ht
  rw [contains_eq_false_of_not_mem (h t ht)]
  rfl

theorem filter_names_nil (names : List String) (tags : List String)
    (h : ∀ t ∈ tags, t ∈ names) :
    tags.filter (fun tag => !(names.contains tag)) = [] := by
  apply List.filter_eq_nil_iff.mpr
  intro t ht
  rw [contains_of_mem (h t ht)]
  simp

/-- C5, corrected to the unnamed/part_003 variant of `handleDeweySelect`:
selecting any code and then clearing the selection restores exactly the
original tag list, PROVIDED no original tag is equal to some loaded
category's name (that variant recognises previously derived hierarchy tags
by name equality, so free-form tags equal to a category name are also
stripped); clearing with no prior selection likewise leaves such a tag list
unchanged.  In the RecipeForm.tsx variant clearing does not touch the tags
at all, so the round trip fails there (see the counterexample). -/
theorem spec2proof_C5 :
    ∀ (cats : List DeweyCategory) (tags : List String) (code : String),
      (∀ t ∈ tags, t ∉ cats.map (fun cat => cat.name)) →
      handleDeweySelectStore cats (handleDeweySelectStore cats tags code) "" = tags ∧
      handleDeweySelectStore cats tags "" = tags := by
  intro cats tags code hdisj
  have hid : tags.filter (fun tag => !((cats.map (fun cat => cat.name)).contains tag)) = tags :=
    filter_not_names_id _ tags hdisj
  have hclear : handleDeweySelectStore cats tags "" = tags := by
    simp only [handleDeweySelectStore, hid]
    exact if_pos trivial
  refine ⟨?_, hclear⟩
  by_cases hc : code = ""
  · rw [hc]
    rw [hclear, hclear]
  · have hH : (getDeweyHierarchyTagsStore cats code).filter
        (fun tag => !((cats.map (fun cat => cat.name)).contains tag)) = [] :=
      filter_names_nil _ _ (mem_names_of_mem_hierarchyTagsStore cats code)
    have hsel : handleDeweySelectStore cats tags code =
        tags ++ getDeweyHierarchyTagsStore cats code := by
      simp only [handleDeweySelectStore, if_neg hc, hid]
    rw [hsel]
    simp only [handleDeweySelectStore, List.filter_append, hid, hH, List.append_nil]
    exact if_pos trivial

/-- Witness for C5: a free-form tag distinct from all category names survives
a select-then-clear round trip in the part_003 variant. -/
theorem spec2proof_C5_witness :
    handleDeweySelectStore
      [{ id := 1, deweyCode := "0", name := "Cooking", level := 1, parentCode := none,
         isActive := true }]
      (handleDeweySelectStore
        [{ id := 1, deweyCode := "0", name := "Cooking", level := 1, parentCode := none,
           isActive := true }] ["free"] "0") "" = ["free"] :=
  (spec2proof_C5
    [{ id := 1, deweyCode := "0", name := "Cooking", level := 1, parentCode := none,
       isActive := true }] ["free"] "0" (by decide)).1

/-- Counterexample to C5 as stated: in the RecipeForm.tsx variant, selecting
code 0 (producing the derived tag `0 Meats`) and then clearing the selection
leaves the derived tag in place — the empty-code branch does not modify the
tags — so the round trip does not restore the initially empty tag list. -/
theorem spec2proof_C5_counterexample :
    handleDeweySelectForm
      [{ id := 1, deweyCode := "0", name := "Meats", level := 1, parentCode := none,
         isActive := true }]
      (handleDeweySelectForm
        [{ id := 1, deweyCode := "0", name := "Meats", level := 1, parentCode := none,
           isActive := true }] [] "0") "" = ["0 Meats"] ∧
    (["0 Meats"] : List String) ≠ [] := by
  constructor
  · decide
  · decide

/-! ## C7: idempotence of the CSV import -/

/-- The code a field contributes, as computed inside `processField`. -/
def fieldCode (f : String) : String :=
  (parseCodeAndName (String.mk (jsTrim f.data))).1

/-- The name a field contributes. -/
def fieldLabel (f : String) : String :=
  (parseCodeAndName (String.mk (jsTrim f.data))).2

/-- A field that survives the trim/parse gates of the import loop. -/
def validField (f : String) : Prop :=
  jsTrim f.data ≠ [] ∧ fieldCode f ≠ "" ∧ fieldLabel f ≠ ""

/-- The dewey codes of a category list. -/
def catCodes (l : List DeweyCategory) : List String :=
  l.map (fun cat => cat.deweyCode)

/-- Invariant of the import run: every code in the run's map belongs either
to the database snapshot or to a category created in this run. -/
def ImportInv (snapshot : List DeweyCategory) (st : ImportState) : Prop :=
  ∀ c ∈ st.seenCodes, c ∈ catCodes snapshot ∨ c ∈ catCodes st.created

/-- All fields of all nonblank lines of the import text, in processing
order. -/
def importFields (text : String) : List String :=
  ((((splitChar '\n' text.data).map String.mk).filter
    (fun l => !(jsTrim l.data).isEmpty)).map
      (fun line => (splitChar ',' line.data).map String.mk)).flatten

theorem handleImportFromCSV_eq_foldl (snapshot : List DeweyCategory) (nextId : Nat)
    (text : String) :
    handleImportFromCSV snapshot nextId text =
      (importFields text).foldl (processField snapshot)
        { created := [], seenCodes := [], nextId := nextId, importedCount := 0,
          errors := [] } := by
  unfold handleImportFromCSV importFields processLine
  rw [List.foldl_flatten, List.foldl_map]

theorem processField_created_append (snapshot : List DeweyCategory) (st : ImportState)
    (f : String) :
    ∃ ex, (processField snapshot st f).created = st.created ++ ex := by
  simp only [processField]
  split
  · exact ⟨[], (List.append_nil _).symm⟩
  split
  · exact ⟨[], (List.append_nil _).symm⟩
  split
  · exact ⟨[], (List.append_nil _).symm⟩
  split
  · exact ⟨[], (List.append_nil _).symm⟩
  · exact ⟨_, rfl⟩

theorem processField_errors_eq (snapshot : List DeweyCategory) (st : ImportState)
    (f : String) :
    (processField snapshot st f).errors = st.errors := by
  simp only [processField]
  split
  · rfl
  split
  · rfl
  split
  · rfl
  split
  · rfl
  · rfl

theorem processField_inv (snapshot : List DeweyCategory) (st : ImportState) (f : String)
    (h : ImportInv snapshot st) : ImportInv snapshot (processField snapshot st f) := by
  simp only [processField]
  split
  · exact h
  split
  · exact h
  split
  · exact h
  split
  · rename_i cat heq
    intro c hc
    rcases List.mem_cons.mp hc with hc1 | hc2
    · subst hc1
      left
      have hmem := List.mem_of_find?_eq_some heq
      have hpred := List.find?_some heq
      rw [beq_iff_eq] at hpred
      exact hpred ▸ List.mem_map.mpr ⟨cat, hmem, rfl⟩
    · exact h c hc2
  · intro c hc
    rcases List.mem_cons.mp hc with hc1 | hc2
    · subst hc1
      right
      simp [catCodes]
    · rcases h c hc2 with h1 | h2
      · exact Or.inl h1
      · right
        unfold catCodes at h2 ⊢
        rw [List.map_append]
        exact List.mem_append_left _ h2

theorem processField_processed (snapshot : List DeweyCategory) (st : ImportState)
    (f : String) (hv : validField f) :
    fieldCode f ∈ (processField snapshot st f).seenCodes := by
  obtain ⟨h1, h2, h3⟩ := hv
  unfold fieldCode at h2 ⊢
  unfold fieldLabel at h3
  simp only [processField]
  split
  · exact absurd (by assumption) h1
  split
  · rename_i hor
    exact absurd hor (by simp [h2, h3])
  split
  · rename_i hcont
    exact List.elem_iff.mp hcont
  split
  · exact List.mem_cons_self _ _
  · exact List.mem_cons_self _ _

theorem processField_seen_mono (snapshot : List DeweyCategory) (st : ImportState)
    (f : String) : st.seenCodes ⊆ (processField snapshot st f).seenCodes := by
  simp only [processField]
  split
  · exact fun _ h => h
  split
  · exact fun _ h => h
  split
  · exact fun _ h => h
  split
  · exact fun _ h => List.mem_cons_of_mem _ h
  · exact fun _ h => List.mem_cons_of_mem _ h

theorem processField_unchanged (snapshot : List DeweyCategory) (st : ImportState)
    (f : String) (h : validField f → fieldCode f ∈ catCodes snapshot) :
    (processField snapshot st f).created = st.created ∧
    (processField snapshot st f).nextId = st.nextId ∧
    (processField snapshot st f).importedCount = st.importedCount ∧
    (processField snapshot st f).errors = st.errors := by
  simp only [processField]
  split
  · exact ⟨rfl, rfl, rfl, rfl⟩
  split
  · exact ⟨rfl, rfl, rfl, rfl⟩
  split
  · exact ⟨rfl, rfl, rfl, rfl⟩
  split
  · exact ⟨rfl, rfl, rfl, rfl⟩
  · exfalso
    have hor : ¬((parseCodeAndName (String.mk (jsTrim f.data))).1 = "" ∨
        (parseCodeAndName (String.mk (jsTrim f.data))).2 = "") := by assumption
    have heq : snapshot.find? (fun cat =>
        cat.deweyCode == (parseCodeAndName (String.mk (jsTrim f.data))).1) = none := by
      assumption
    have hv : validField f := by
      refine ⟨by assumption, ?_, ?_⟩
      · unfold fieldCode
        intro hc
        exact hor (Or.inl hc)
      · unfold fieldLabel
        intro hc
        exact hor (Or.inr hc)
    have hmem := h hv
    unfold catCodes at hmem
    unfold fieldCode at hmem
    obtain ⟨cat, hcat, hcode⟩ := List.mem_map.mp hmem
    have hsome : (snapshot.find? (fun cat =>
        cat.deweyCode == (parseCodeAndName (String.mk (jsTrim f.data))).1)).isSome :=
      List.find?_isSome.mpr ⟨cat, hcat, by rw [hcode]; exact beq_self_eq_true _⟩
    rw [heq] at hsome
    exact absurd hsome (by simp)

theorem foldl_created_append (snapshot : List DeweyCategory) (fields : List String)
    (st : ImportState) :
    ∃ ex, (fields.foldl (processField snapshot) st).created = st.created ++ ex := by
  induction fields generalizing st with
  | nil => exact ⟨[], (List.append_nil _).symm⟩
  | cons f fs ih =>
    obtain ⟨ex1, h1⟩ := processField_created_append snapshot st f
    obtain ⟨ex2, h2⟩ := ih (processField snapshot st f)
    exact ⟨ex1 ++ ex2, by rw [List.foldl_cons, h2, h1, List.append_assoc]⟩

theorem foldl_errors_eq (snapshot : List DeweyCategory) (fields : List String)
    (st : ImportState) :
    (fields.foldl (processField snapshot) st).errors = st.errors := by
  induction fields generalizing st with
  | nil => rfl
  | cons f fs ih =>
    rw [List.foldl_cons, ih (processField snapshot st f),
      processField_errors_eq snapshot st f]

theorem foldl_inv (snapshot : List DeweyCategory) (fields : List String)
    (st : ImportState) (h : ImportInv snapshot st) :
    ImportInv snapshot (fields.foldl (processField snapshot) st) := by
  induction fields generalizing st with
  | nil => exact h
  | cons f fs ih => exact ih _ (processField_inv snapshot st f h)

theorem foldl_seen_mono (snapshot : List DeweyCategory) (fields : List String)
    (st : ImportState) :
    st.seenCodes ⊆ (fields.foldl (processField snapshot) st).seenCodes := by
  induction fields generalizing st with
  | nil => exact fun _ h => h
  | cons f fs ih =>
    exact fun c hc => ih (processField snapshot st f)
      (processField_seen_mono snapshot st f hc)

theorem seen_sub_codes (snapshot : List DeweyCategory) (st : ImportState)
    (h : ImportInv snapshot st) :
    ∀ c ∈ st.seenCodes, c ∈ catCodes snapshot ∨ c ∈ catCodes st.created :=
  h

theorem foldl_covers (snapshot : List DeweyCategory) (fields : List String)
    (st : ImportState) (hinv : ImportInv snapshot st) :
    ∀ f ∈ fields, validField f →
      fieldCode f ∈ catCodes snapshot ∨
      fieldCode f ∈ catCodes (fields.foldl (processField snapshot) st).created := by
  induction fields generalizing st with
  | nil => intro f hf; exact absurd hf (List.not_mem_nil f)
  | cons g gs ih =>
    intro f hf hv
    rw [List.foldl_cons]
    rcases List.mem_cons.mp hf with hfg | hfs
    · subst hfg
      have hseen : fieldCode f ∈ (processField snapshot st f).seenCodes :=
        processField_processed snapshot st f hv
      have hseen2 : fieldCode f ∈
          (gs.foldl (processField snapshot) (processField snapshot st f)).seenCodes :=
        foldl_seen_mono snapshot gs (processField snapshot st f) hseen
      exact foldl_inv snapshot gs (processField snapshot st f)
        (processField_inv snapshot st f hinv) (fieldCode f) hseen2
    · exact ih (processField snapshot st g) (processField_inv snapshot st g hinv) f hfs hv

theorem foldl_unchanged (snapshot : List DeweyCategory) (fields : List String)
    (st : ImportState)
    (h : ∀ f ∈ fields, validField f → fieldCode f ∈ catCodes snapshot) :
    (fields.foldl (processField snapshot) st).created = st.created ∧
    (fields.foldl (processField snapshot) st).nextId = st.nextId ∧
    (fields.foldl (processField snapshot) st).importedCount = st.importedCount ∧
    (fields.foldl (processField snapshot) st).errors = st.errors := by
  induction fields generalizing st with
  | nil => exact ⟨rfl, rfl, rfl, rfl⟩
  | cons f fs ih =>
    have h1 := processField_unchanged snapshot st f (h f (List.mem_cons_self f fs))
    have h2 := ih (processField snapshot st f)
      (fun g hg => h g (List.mem_cons_of_mem f hg))
    rw [List.foldl_cons]
    exact ⟨h2.1.trans h1.1, h2.2.1.trans h1.2.1, h2.2.2.1.trans h1.2.2.1,
      h2.2.2.2.trans h1.2.2.2⟩

/-- C7: importing the same text twice is idempotent.  With `cats1` the
category set after the first import (the prior snapshot plus the categories
that import created), a second run of the same import against `cats1`
creates no category, counts zero imports, reports zero errors, and so leaves
the category set at exactly `cats1`. -/
theorem spec2proof_C7 :
    ∀ (cats0 : List DeweyCategory) (nextId0 : Nat) (text : String),
      (handleImportFromCSV (cats0 ++ (handleImportFromCSV cats0 nextId0 text).created)
        (handleImportFromCSV cats0 nextId0 text).nextId text).created = [] ∧
      (handleImportFromCSV (cats0 ++ (handleImportFromCSV cats0 nextId0 text).created)
        (handleImportFromCSV cats0 nextId0 text).nextId text).importedCount = 0 ∧
      (handleImportFromCSV (cats0 ++ (handleImportFromCSV cats0 nextId0 text).created)
        (handleImportFromCSV cats0 nextId0 text).nextId text).errors = [] ∧
      (cats0 ++ (handleImportFromCSV cats0 nextId0 text).created) ++
        (handleImportFromCSV (cats0 ++ (handleImportFromCSV cats0 nextId0 text).created)
          (handleImportFromCSV cats0 nextId0 text).nextId text).created =
        cats0 ++ (handleImportFromCSV cats0 nextId0 text).created := by
  intro cats0 nextId0 text
  have hcover : ∀ f ∈ importFields text, validField f →
      fieldCode f ∈ catCodes (cats0 ++ (handleImportFromCSV cats0 nextId0 text).created) := by
    intro f hf hv
    have h := foldl_covers cats0 (importFields text)
      { created := [], seenCodes := [], nextId := nextId0, importedCount := 0, errors := [] }
      (fun c hc => absurd hc (List.not_mem_nil c)) f hf hv
    rw [← handleImportFromCSV_eq_foldl] at h
    unfold catCodes at h ⊢
    rw [List.map_append]
    rcases h with h1 | h2
    · exact List.mem_append_left _ h1
    · exact List.mem_append_right _ h2
  have h2 := foldl_unchanged (cats0 ++ (handleImportFromCSV cats0 nextId0 text).created)
    (importFields text)
    { created := [], seenCodes := [], nextId := (handleImportFromCSV cats0 nextId0 text).nextId,
      importedCount := 0, errors := [] } hcover
  rw [← handleImportFromCSV_eq_foldl] at h2
  refine ⟨h2.1, h2.2.2.1, h2.2.2.2, ?_⟩
  rw [h2.1, List.append_nil]

/-! ## C1 and C8: the sequence allocator -/

theorem lexLt_irrefl (l : List Char) : lexLt l l = false := by
  induction l with
  | nil => rfl
  | cons a as ih => simp only [lexLt, if_neg (lt_irrefl a), ih]

theorem lexLt_trans {a b c : List Char} (h1 : lexLt a b = true) (h2 : lexLt b c = true) :
    lexLt a c = true := by
  induction a generalizing b c with
  | nil =>
    cases b with
    | nil => exact absurd h1 (by simp [lexLt])
    | cons y ys =>
      cases c with
      | nil => exact absurd h2 (by simp [lexLt])
      | cons z zs => rfl
  | cons x xs ih =>
    cases b with
    | nil => exact absurd h1 (by simp [lexLt])
    | cons y ys =>
      cases c with
      | nil => exact absurd h2 (by simp [lexLt])
      | cons z zs =>
        simp only [lexLt] at h1 h2 ⊢
        by_cases hxy : x < y
        · by_cases hyz : y < z
          · rw [if_pos (lt_trans hxy hyz)]
          · by_cases hzy : z < y
            · rw [if_pos hxy] at h1
              rw [if_neg hyz, if_pos hzy] at h2
              exact absurd h2 (by simp)
            · have : y = z := le_antisymm (not_lt.mp hzy) (not_lt.mp hyz)
              subst this
              rw [if_pos hxy]
        · by_cases hyx : y < x
          · rw [if_neg hxy, if_pos hyx] at h1
            exact absurd h1 (by simp)
          · have hxyeq : x = y := le_antisymm (not_lt.mp hyx) (not_lt.mp hxy)
            subst hxyeq
            rw [if_neg hxy, if_neg hyx] at h1
            by_cases hyz : x < z
            · rw [if_pos hyz]
            · by_cases hzy : z < x
              · rw [if_neg hyz, if_pos hzy] at h2
                exact absurd h2 (by simp)
              · have : x = z := le_antisymm (not_lt.mp hzy) (not_lt.mp hyz)
                subst this
                rw [if_neg hyz, if_neg hyz] at h2 ⊢
                exact ih h1 h2

theorem lexLt_connex {a b : List Char} (h1 : lexLt a b = false) (h2 : lexLt b a = false) :
    a = b := by
  induction a generalizing b with
  | nil =>
    cases b with
    | nil => rfl
    | cons y ys => exact absurd h1 (by simp [lexLt])
  | cons x xs ih =>
    cases b with
    | nil => exact absurd h2 (by simp [lexLt])
    | cons y ys =>
      simp only [lexLt] at h1 h2
      by_cases hxy : x < y
      · rw [if_pos hxy] at h1
        exact absurd h1 (by simp)
      · by_cases hyx : y < x
        · rw [if_pos hyx] at h2
          exact absurd h2 (by simp)
        · have hxyeq : x = y := le_antisymm (not_lt.mp hyx) (not_lt.mp hxy)
          subst hxyeq
          rw [if_neg hxy, if_neg hxy] at h1
          rw [if_neg hxy, if_neg hxy] at h2
          rw [ih h1 h2]

theorem lexLt_append_cancel (p xs ys : List Char) :
    lexLt (p ++ xs) (p ++ ys) = lexLt xs ys := by
  induction p with
  | nil => rfl
  | cons a ps ih =>
    simp only [List.cons_append, lexLt, if_neg (lt_irrefl a), List.append_eq, ih]

/-- The integer value of a decimal digit string, most significant digit
first — the quantity computed by `parseInt` on the digit runs at hand. -/
def valFold (l : List Char) : Nat :=
  l.foldl (fun a c => 10 * a + (c.toNat - 48)) 0

theorem valFold_foldl_init (l : List Char) :
    ∀ a : Nat, l.foldl (fun a c => 10 * a + (c.toNat - 48)) a =
      a * 10 ^ l.length + valFold l := by
  induction l with
  | nil =>
    intro a
    simp [valFold]
  | cons c cs ih =>
    intro a
    have h1 := ih (10 * a + (c.toNat - 48))
    have h2 := ih (c.toNat - 48)
    have hv : valFold (c :: cs) = (c.toNat - 48) * 10 ^ cs.length + valFold cs := by
      unfold valFold
      rw [List.foldl_cons]
      have := ih (10 * 0 + (c.toNat - 48))
      simpa using this
    rw [List.foldl_cons, h1, hv, List.length_cons]
    ring

theorem valFold_cons (c : Char) (cs : List Char) :
    valFold (c :: cs) = (c.toNat - 48) * 10 ^ cs.length + valFold cs := by
  unfold valFold
  rw [List.foldl_cons]
  have := valFold_foldl_init cs (10 * 0 + (c.toNat - 48))
  simpa using this

theorem valFold_lt (l : List Char) (h : ∀ c ∈ l, c.isDigit = true) :
    valFold l < 10 ^ l.length := by
  induction l with
  | nil => simp [valFold]
  | cons c cs ih =>
    have hd : c.toNat - 48 ≤ 9 := by
      have := isDigit_toNat_bounds (h c (List.mem_cons_self c cs))
      omega
    have ihv := ih (fun x hx => h x (List.mem_cons_of_mem c hx))
    rw [valFold_cons, List.length_cons]
    calc (c.toNat - 48) * 10 ^ cs.length + valFold cs
        < (c.toNat - 48) * 10 ^ cs.length + 10 ^ cs.length := Nat.add_lt_add_left ihv _
      _ = ((c.toNat - 48) + 1) * 10 ^ cs.length := by ring
      _ ≤ 10 * 10 ^ cs.length := Nat.mul_le_mul_right _ (by omega)
      _ = 10 ^ (cs.length + 1) := by rw [pow_succ]; ring

theorem char_lt_iff_val_lt {a b : Char} (ha : a.isDigit = true) (hb : b.isDigit = true) :
    a < b ↔ a.toNat - 48 < b.toNat - 48 := by
  have h1 := isDigit_toNat_bounds ha
  have h2 := isDigit_toNat_bounds hb
  constructor
  · intro h
    have hn : a.toNat < b.toNat := h
    omega
  · intro h
    show a.toNat < b.toNat
    omega

theorem lexLt_digits_iff (s : List Char) :
    ∀ t : List Char, s.length = t.length → (∀ c ∈ s, c.isDigit = true) →
      (∀ c ∈ t, c.isDigit = true) → (lexLt s t = true ↔ valFold s < valFold t) := by
  induction s with
  | nil =>
    intro t hlen _ _
    cases t with
    | nil => simp [lexLt, valFold]
    | cons y ys => exact absurd hlen (by simp)
  | cons x xs ih =>
    intro t hlen hs ht
    cases t with
    | nil => exact absurd hlen (by simp)
    | cons y ys =>
      have hlen2 : xs.length = ys.length := by
        simpa using hlen
      have hxd := hs x (List.mem_cons_self x xs)
      have hyd := ht y (List.mem_cons_self y ys)
      have hxb := isDigit_toNat_bounds hxd
      have hyb := isDigit_toNat_bounds hyd
      have hA : valFold xs < 10 ^ xs.length :=
        valFold_lt xs (fun c hc => hs c (List.mem_cons_of_mem x hc))
      have hB : valFold ys < 10 ^ ys.length :=
        valFold_lt ys (fun c hc => ht c (List.mem_cons_of_mem y hc))
      rw [valFold_cons, valFold_cons, ← hlen2]
      by_cases hxy : x < y
      · simp only [lexLt, if_pos hxy]
        have hd : x.toNat - 48 < y.toNat - 48 := (char_lt_iff_val_lt hxd hyd).mp hxy
        constructor
        · intro
          calc (x.toNat - 48) * 10 ^ xs.length + valFold xs
              < (x.toNat - 48) * 10 ^ xs.length + 10 ^ xs.length :=
                Nat.add_lt_add_left hA _
            _ = ((x.toNat - 48) + 1) * 10 ^ xs.length := by ring
            _ ≤ (y.toNat - 48) * 10 ^ xs.length := Nat.mul_le_mul_right _ (by omega)
            _ ≤ (y.toNat - 48) * 10 ^ xs.length + valFold ys := Nat.le_add_right _ _
        · intro
          trivial
      · by_cases hyx : y < x
        · simp only [lexLt, if_neg hxy, if_pos hyx]
          have hd : y.toNat - 48 < x.toNat - 48 := (char_lt_iff_val_lt hyd hxd).mp hyx
          constructor
          · intro hcon
            exact absurd hcon (by simp)
          · intro hcon
            exfalso
            have : (y.toNat - 48) * 10 ^ xs.length + valFold ys <
                (x.toNat - 48) * 10 ^ xs.length + valFold xs := by
              calc (y.toNat - 48) * 10 ^ xs.length + valFold ys
                  < (y.toNat - 48) * 10 ^ xs.length + 10 ^ xs.length := by
                    rw [hlen2] at *
                    exact Nat.add_lt_add_left hB _
                _ = ((y.toNat - 48) + 1) * 10 ^ xs.length := by ring
                _ ≤ (x.toNat - 48) * 10 ^ xs.length := Nat.mul_le_mul_right _ (by omega)
                _ ≤ (x.toNat - 48) * 10 ^ xs.length + valFold xs := Nat.le_add_right _ _
            omega
        · have hxyeq : x = y := le_antisymm (not_lt.mp hyx) (not_lt.mp hxy)
          subst hxyeq
          simp only [lexLt, if_neg hxy]
          rw [ih ys hlen2 (fun c hc => hs c (List.mem_cons_of_mem x hc))
            (fun c hc => ht c (List.mem_cons_of_mem x hc))]
          omega

theorem sqlMax_foldl_some (l : List String) :
    ∀ m0 : String,
      ∃ m, l.foldl
          (fun acc s =>
            match acc with
            | none => some s
            | some m => if lexLt m.data s.data then some s else some m)
          (some m0) = some m ∧
        (m = m0 ∨ m ∈ l) ∧ lexLt m.data m0.data = false ∧
        ∀ x ∈ l, lexLt m.data x.data = false := by
  induction l with
  | nil =>
    intro m0
    exact ⟨m0, rfl, Or.inl rfl, lexLt_irrefl m0.data,
      fun x hx => absurd hx (List.not_mem_nil x)⟩
  | cons s ss ih =>
    intro m0
    rw [List.foldl_cons]
    have hstep : (match some m0 with
        | none => some s
        | some m => if lexLt m.data s.data = true then some s else some m) =
        if lexLt m0.data s.data = true then some s else some m0 := rfl
    rw [hstep]
    by_cases hlt : lexLt m0.data s.data = true
    · rw [if_pos hlt]
      obtain ⟨m, heq, hmem, hms, hall⟩ := ih s
      refine ⟨m, heq, ?_, ?_, ?_⟩
      · rcases hmem with h1 | h2
        · exact Or.inr (h1 ▸ List.mem_cons_self s ss)
        · exact Or.inr (List.mem_cons_of_mem s h2)
      · cases hmm0 : lexLt m.data m0.data with
        | false => rfl
        | true =>
          have := lexLt_trans hmm0 hlt
          rw [this] at hms
          exact absurd hms (by simp)
      · intro x hx
        rcases List.mem_cons.mp hx with h1 | h2
        · exact h1 ▸ hms
        · exact hall x h2
    · rw [if_neg hlt]
      have hlt0 : lexLt m0.data s.data = false := by
        cases h : lexLt m0.data s.data with
        | false => rfl
        | true => exact absurd h hlt
      obtain ⟨m, heq, hmem, hms, hall⟩ := ih m0
      refine ⟨m, heq, ?_, hms, ?_⟩
      · rcases hmem with h1 | h2
        · exact Or.inl h1
        · exact Or.inr (List.mem_cons_of_mem s h2)
      · intro x hx
        rcases List.mem_cons.mp hx with h1 | h2
        · subst h1
          cases hmx : lexLt m.data x.data with
          | false => rfl
          | true =>
            exfalso
            cases hm0m : lexLt m0.data m.data with
            | true =>
              have := lexLt_trans hm0m hmx
              rw [this] at hlt0
              exact absurd hlt0 (by simp)
            | false =>
              have hme : m.data = m0.data := lexLt_connex hms hm0m
              rw [hme] at hmx
              rw [hmx] at hlt0
              exact absurd hlt0 (by simp)
        · exact hall x h2

theorem sqlMaxString_spec (l : List String) (h : l ≠ []) :
    ∃ m, sqlMaxString l = some m ∧ m ∈ l ∧ ∀ x ∈ l, lexLt m.data x.data = false := by
  cases l with
  | nil => exact absurd rfl h
  | cons s ss =>
    unfold sqlMaxString
    rw [List.foldl_cons]
    obtain ⟨m, heq, hmem, hms, hall⟩ := sqlMax_foldl_some ss s
    refine ⟨m, heq, ?_, ?_⟩
    · rcases hmem with h1 | h2
      · exact h1 ▸ List.mem_cons_self s ss
      · exact List.mem_cons_of_mem s h2
    · intro x hx
      rcases List.mem_cons.mp hx with h1 | h2
      · exact h1 ▸ hms
      · exact hall x h2

theorem isPrefixOf_append_self (p l : List Char) : p.isPrefixOf (p ++ l) = true := by
  induction p with
  | nil => simp [List.isPrefixOf]
  | cons a as ih => simp [List.isPrefixOf, ih]

theorem likeBaseDot_map (b : String) (s : String) :
    likeBaseDot b (b ++ "." ++ s) = true := by
  unfold likeBaseDot
  have hd : (b ++ "." ++ s).data = (b ++ ".").data ++ s.data := by
    simp [String.data_append]
  rw [hd]
  exact isPrefixOf_append_self _ _

theorem filter_likeBaseDot_map (b : String) (S : List String) :
    (S.map (fun s => b ++ "." ++ s)).filter (likeBaseDot b) =
      S.map (fun s => b ++ "." ++ s) := by
  apply List.filter_eq_self.mpr
  intro x hx
  obtain ⟨s, _, hmap⟩ := List.mem_map.mp hx
  rw [← hmap]
  exact likeBaseDot_map b s

/-- The greatest already-used suffix value, as a fold over the suffix
integers. -/
def maxNatList (l : List Nat) : Nat :=
  l.foldl max 0

theorem foldl_max_init_le (l : List Nat) : ∀ i : Nat, i ≤ l.foldl max i := by
  induction l with
  | nil => exact fun i => le_rfl
  | cons x xs ih =>
    intro i
    exact le_trans (le_max_left i x) (ih (max i x))

theorem le_foldl_max {a : Nat} {l : List Nat} (h : a ∈ l) : ∀ i : Nat, a ≤ l.foldl max i := by
  induction l with
  | nil => exact absurd h (List.not_mem_nil a)
  | cons x xs ih =>
    intro i
    rcases List.mem_cons.mp h with h1 | h2
    · subst h1
      exact le_trans (le_max_right i a) (foldl_max_init_le xs (max i a))
    · exact ih h2 (max i x)

theorem foldl_max_le {l : List Nat} {m : Nat} (h : ∀ x ∈ l, x ≤ m) :
    ∀ i : Nat, i ≤ m → l.foldl max i ≤ m := by
  induction l with
  | nil => exact fun i hi => hi
  | cons x xs ih =>
    intro i hi
    exact ih (fun y hy => h y (List.mem_cons_of_mem x hy)) (max i x)
      (max_le hi (h x (List.mem_cons_self x xs)))

theorem getNextDeweySequence_maxSpec (b : String) (S : List String)
    (hS : ∀ s ∈ S, s.data.length = 3 ∧ ∀ c ∈ s.data, c.isDigit = true) :
    (S = [] → getNextDeweySequence b (S.map (fun s => b ++ "." ++ s)) = b ++ ".001") ∧
    (S ≠ [] → getNextDeweySequence b (S.map (fun s => b ++ "." ++ s)) =
      b ++ "." ++ jsPadStart (jsNumToString
        (maxNatList (S.map (fun s => valFold s.data)) + 1)) 3 '0') := by
  constructor
  · intro h
    subst h
    rfl
  · intro hne
    have hfil : (S.map (fun s => b ++ "." ++ s)).filter (likeBaseDot b) =
        S.map (fun s => b ++ "." ++ s) := filter_likeBaseDot_map b S
    have hmapne : S.map (fun s => b ++ "." ++ s) ≠ [] := by
      intro hmap
      apply hne
      cases S with
      | nil => rfl
      | cons a as => simp at hmap
    obtain ⟨m, hmax, hmem, hall⟩ := sqlMaxString_spec _ hmapne
    obtain ⟨sk, hskS, hskm⟩ := List.mem_map.mp hmem
    obtain ⟨hlen3, hdig⟩ := hS sk hskS
    have hlast : (splitChar '.' m.data).getLastD [] = sk.data := by
      rw [← hskm, data_append_dot]
      exact getLastD_splitChar_append '.' b.data sk.data
        (fun c hc => isDigit_ne_dot (hdig c hc))
    have hskne : sk.data ≠ [] := by
      intro hn
      rw [hn] at hlen3
      simp at hlen3
    have hparse : jsParseInt sk.data = some (valFold sk.data) := by
      unfold jsParseInt
      rw [takeWhile_all_eq _ _ hdig, if_neg hskne]
      rfl
    have hvmax : maxNatList (S.map (fun s => valFold s.data)) = valFold sk.data := by
      apply le_antisymm
      · unfold maxNatList
        apply foldl_max_le ?_ 0 (Nat.zero_le _)
        intro v hv
        obtain ⟨s, hsS, hveq⟩ := List.mem_map.mp hv
        subst hveq
        have hx := hall (b ++ "." ++ s) (List.mem_map.mpr ⟨s, hsS, rfl⟩)
        rw [← hskm, data_append_dot, data_append_dot, List.append_cons b.data '.' sk.data,
          List.append_cons b.data '.' s.data, lexLt_append_cancel] at hx
        obtain ⟨hl3, hd3⟩ := hS s hsS
        have hiff := lexLt_digits_iff sk.data s.data (hlen3.trans hl3.symm) hdig hd3
        by_contra hv2
        have hlt : valFold sk.data < valFold s.data := by omega
        rw [hiff.mpr hlt] at hx
        exact absurd hx (by simp)
      · unfold maxNatList
        have hmm : valFold sk.data ∈ S.map (fun s => valFold s.data) :=
          List.mem_map.mpr ⟨sk, hskS, rfl⟩
        exact le_foldl_max hmm 0
    simp only [getNextDeweySequence, hfil, hmax, hlast, hparse, hvmax]

/-- C1: with the used codes under base `b` being exactly `b ++ "." ++ s` for
the 3-digit zero-padded suffixes `s` in `S`, the allocator returns
`b ++ ".001"` when `S` is empty, and otherwise appends one plus the greatest
suffix value (never a freed gap below it), zero-padded to three digits. -/
theorem spec2proof_C1 (b : String) (S : List String)
    (hS : ∀ s ∈ S, s.data.length = 3 ∧ ∀ c ∈ s.data, c.isDigit = true) :
    (S = [] → getNextDeweySequence b (S.map (fun s => b ++ "." ++ s)) = b ++ ".001") ∧
    (S ≠ [] → getNextDeweySequence b (S.map (fun s => b ++ "." ++ s)) =
      b ++ "." ++ jsPadStart (jsNumToString
        (maxNatList (S.map (fun s => valFold s.data)) + 1)) 3 '0') :=
  getNextDeweySequence_maxSpec b S hS

/-- Witness for C1 at the spec's two examples. -/
theorem spec2proof_C1_witness :
    getNextDeweySequence "411.21" (["001", "002"].map (fun s => "411.21" ++ "." ++ s)) =
      "411.21.003" ∧
    getNextDeweySequence "000" (([] : List String).map (fun s => "000" ++ "." ++ s)) =
      "000.001" := by
  constructor
  · exact ((spec2proof_C1 "411.21" ["001", "002"] (by decide)).2 (by decide)).trans (by decide)
  · exact ((spec2proof_C1 "000" [] (by decide)).1 rfl).trans (by decide)

/-- Counterexample to C8 as stated: with greatest used suffix 999 the
allocator raises nothing — it returns a code with the four-digit suffix
1000. -/
theorem spec2proof_C8_counterexample :
    getNextDeweySequence "411.21" ["411.21.999"] = "411.21.1000" := by decide

/-- C8, corrected: when the greatest already-used suffix under the base is
999, `getNextDeweySequence` does not surface any out-of-sequence-space
error; `padStart` leaves the four-character string `"1000"` unchanged, so the
call returns the base followed by the four-digit suffix `.1000`. -/
theorem spec2proof_C8 (b : String) (S : List String)
    (hS : ∀ s ∈ S, s.data.length = 3 ∧ ∀ c ∈ s.data, c.isDigit = true)
    (hne : S ≠ [])
    (hmax : maxNatList (S.map (fun s => valFold s.data)) = 999) :
    getNextDeweySequence b (S.map (fun s => b ++ "." ++ s)) = b ++ "." ++ "1000" := by
  have h := (getNextDeweySequence_maxSpec b S hS).2 hne
  rw [h, hmax]
  have e : jsPadStart (jsNumToString (999 + 1)) 3 '0' = "1000" := by decide
  rw [e]

/-- Witness for C8 at base 411.21 with used suffix 999. -/
theorem spec2proof_C8_witness :
    getNextDeweySequence "411.21" (["999"].map (fun s => "411.21" ++ "." ++ s)) =
      "411.21.1000" :=
  (spec2proof_C8 "411.21" ["999"] (by decide) (by decide) (by decide)).trans (by decide)
